import Mathlib

/-!
Verification of the quadtree core of the landmark-visualization preprocessing
pipeline (`src/preprocessing/quadtree_builder.py`).

The Python module is shallowly embedded below: coordinates (Python floats) are
modelled as exact rationals `ℚ`, feature dictionaries as their coordinate pair
(the core never reads anything else from a feature), the mutable
`QuadtreeNode` class as an inductive tree, and the in-place
`_compute_average_position` mutation as a function returning the updated node.
The recursive `_build` closure is embedded with an explicit fuel argument
`fuel = maxDepth - depth`, so the source guard `depth >= MAX_DEPTH` becomes
`fuel = 0`.  `compute_depth_stats` reads `node.chunkSizeKm`, an attribute that
no code path ever assigns, so that read is embedded as an `Except.error`
mirroring Python's `AttributeError`.
-/

/-- A point feature.  The source reads only
`feature["geometry"]["coordinates"] = [lon, lat]`; tags are opaque and unused
by the core, so a feature is embedded as its coordinate pair. -/
structure Feature where
  lon : ℚ
  lat : ℚ
deriving DecidableEq, Repr

/-- Embedding of `Quad`: a geographic bounding box given by its south, west,
north and east edges. -/
structure Quad where
  south : ℚ
  west : ℚ
  north : ℚ
  east : ℚ
deriving DecidableEq, Repr

/-- `MAX_DEPTH = 6`: maximum depth levels for splitting. -/
def MAX_DEPTH : ℕ := 6

/-- `MAX_PER_NODE = 25`: maximum number of POIs per leaf before splitting. -/
def MAX_PER_NODE : ℕ := 25

/-- Embedding of `Quad.subdivide_into_quadrants`: split at the midpoint of
both axes, returning the south-west, south-east, north-west and north-east
quadrants in that order. -/
def Quad.subdivide_into_quadrants (q : Quad) : List Quad :=
  let mid_lat := (q.south + q.north) / 2
  let mid_lon := (q.west + q.east) / 2
  [ ⟨q.south, q.west, mid_lat, mid_lon⟩,
    ⟨q.south, mid_lon, mid_lat, q.east⟩,
    ⟨mid_lat, q.west, q.north, mid_lon⟩,
    ⟨mid_lat, mid_lon, q.north, q.east⟩ ]

/-- Embedding of `Quad.contains_feature`:
`(self.south <= lat <= self.north) and (self.west <= lon <= self.east)`. -/
def Quad.contains_feature (q : Quad) (f : Feature) : Bool :=
  decide (q.south ≤ f.lat ∧ f.lat ≤ q.north) && decide (q.west ≤ f.lon ∧ f.lon ≤ q.east)

/-- Area of a bounding box in degree², used to state the tiling property of
`subdivide_into_quadrants`. -/
def Quad.area (q : Quad) : ℚ :=
  (q.north - q.south) * (q.east - q.west)

/-- Embedding of the `QuadtreeNode` class: bounding box, leaf `data`,
`children`, and the summary attributes `poiCount` (initialized `0`) and
`averagePosition` (initialized `None`). -/
inductive QuadtreeNode : Type where
  | mk : Quad → List Feature → List QuadtreeNode → ℕ → Option (ℚ × ℚ) → QuadtreeNode
deriving Repr

/-- The `bbox` attribute. -/
def QuadtreeNode.bbox : QuadtreeNode → Quad
  | .mk b _ _ _ _ => b

/-- The `data` attribute (features held directly, only meaningful on leaves). -/
def QuadtreeNode.data : QuadtreeNode → List Feature
  | .mk _ d _ _ _ => d

/-- The `children` attribute. -/
def QuadtreeNode.children : QuadtreeNode → List QuadtreeNode
  | .mk _ _ c _ _ => c

/-- The `poiCount` summary attribute. -/
def QuadtreeNode.poiCount : QuadtreeNode → ℕ
  | .mk _ _ _ p _ => p

/-- The `averagePosition` summary attribute (`None` embedded as `none`). -/
def QuadtreeNode.averagePosition : QuadtreeNode → Option (ℚ × ℚ)
  | .mk _ _ _ _ a => a

/-- Per the class docstring, a node is a leaf when it has no children
(`if not self.children` is the branch taken in the source). -/
def QuadtreeNode.isLeaf (t : QuadtreeNode) : Bool :=
  t.children.isEmpty

/-- `sum(f["geometry"]["coordinates"][0] for f in data)`. -/
def sumLon (fs : List Feature) : ℚ :=
  (fs.map Feature.lon).sum

/-- `sum(f["geometry"]["coordinates"][1] for f in data)`. -/
def sumLat (fs : List Feature) : ℚ :=
  (fs.map Feature.lat).sum

/-- One loop iteration of the internal-node case of
`_compute_average_position`: a child contributes
`(lon * poiCount, lat * poiCount, poiCount)` when
`c.averagePosition and c.poiCount > 0` (a present tuple is truthy in Python),
and nothing otherwise. -/
def childContribution (c : QuadtreeNode) : ℚ × ℚ × ℕ :=
  match c.averagePosition with
  | some v => if 0 < c.poiCount then (v.1 * c.poiCount, v.2 * c.poiCount, c.poiCount) else (0, 0, 0)
  | none => (0, 0, 0)

/-- The `for c in self.children` accumulation of `(sum_lon, sum_lat, total)`. -/
def weightedSums (cs : List QuadtreeNode) : ℚ × ℚ × ℕ :=
  cs.foldl (fun acc c =>
    let t := childContribution c
    (acc.1 + t.1, acc.2.1 + t.2.1, acc.2.2 + t.2.2)) (0, 0, 0)

mutual
/-- Embedding of `QuadtreeNode._compute_average_position`.  Children are
aggregated first; a childless node with `n > 0` features gets
`poiCount = n` and `averagePosition = (sum_lon / n, sum_lat / n)` (fields are
left untouched when `n = 0`); a node with children gets the weighted totals,
and keeps its previous `averagePosition` when `total = 0`. -/
def compute_average_position : QuadtreeNode → QuadtreeNode
  | .mk box data children p a =>
    let cs := computeAvgList children
    if cs.isEmpty then
      if 0 < data.length then
        QuadtreeNode.mk box data cs data.length
          (some (sumLon data / (data.length : ℚ), sumLat data / (data.length : ℚ)))
      else
        QuadtreeNode.mk box data cs p a
    else
      let s := weightedSums cs
      QuadtreeNode.mk box data cs s.2.2
        (if 0 < s.2.2 then some (s.1 / (s.2.2 : ℚ), s.2.1 / (s.2.2 : ℚ)) else a)
/-- The `for child in self.children: child._compute_average_position()` pass. -/
def computeAvgList : List QuadtreeNode → List QuadtreeNode
  | [] => []
  | c :: cs => compute_average_position c :: computeAvgList cs
end

/-- Embedding of the inner `_build(feats, box, depth)` closure of
`build_quadtree_for_category`, with `fuel = MAX_DEPTH - depth` so the guard
`depth >= MAX_DEPTH` is `fuel = 0`.  A node becomes a leaf when fuel runs out
or `len(feats) <= max_per_node`; otherwise each quadrant with a non-empty
bucket `[f for f in feats if sub_box.contains_feature(f)]` yields a child,
`data` is cleared when at least one child was produced, and the node is
aggregated by `_compute_average_position`. -/
def buildFuel (max_per_node : ℕ) : ℕ → List Feature → Quad → QuadtreeNode
  | 0, feats, box => compute_average_position (.mk box feats [] 0 none)
  | fuel + 1, feats, box =>
    if feats.length ≤ max_per_node then
      compute_average_position (.mk box feats [] 0 none)
    else
      let children := box.subdivide_into_quadrants.filterMap fun sub_box =>
        let bucket := feats.filter fun f => sub_box.contains_feature f
        if bucket.isEmpty then none
        else some (buildFuel max_per_node fuel bucket sub_box)
      compute_average_position (.mk box (if children.isEmpty then feats else []) children 0 none)

/-- The child list produced by the subdivision loop of `_build`: one child per
quadrant with a non-empty bucket, in quadrant order. -/
def buildChildren (m n : ℕ) (feats : List Feature) (box : Quad) : List QuadtreeNode :=
  box.subdivide_into_quadrants.filterMap fun sub_box =>
    let bucket := feats.filter fun f => sub_box.contains_feature f
    if bucket.isEmpty then none
    else some (buildFuel m n bucket sub_box)

/-- `_build(feats, box, depth)` with explicit `maxDepth` and `max_per_node`
configuration (the source reads `MAX_DEPTH` as a module constant and
`max_per_node` from the enclosing call). -/
def buildFrom (maxDepth max_per_node : ℕ) (feats : List Feature) (box : Quad)
    (depth : ℕ) : QuadtreeNode :=
  buildFuel max_per_node (maxDepth - depth) feats box

/-- Embedding of `build_quadtree_for_category(features, bbox, max_per_node)`:
`_build(features, bbox, depth=0)` under the module constant `MAX_DEPTH`. -/
def build_quadtree_for_category (features : List Feature) (bbox : Quad)
    (max_per_node : ℕ := MAX_PER_NODE) : QuadtreeNode :=
  buildFrom MAX_DEPTH max_per_node features bbox 0

mutual
/-- Number of nodes of a tree (used as a termination measure for the
breadth-first queue of `compute_depth_stats`). -/
def tsize : QuadtreeNode → ℕ
  | .mk _ _ cs _ _ => 1 + tsizeList cs
/-- Total node count of a forest. -/
def tsizeList : List QuadtreeNode → ℕ
  | [] => 0
  | c :: cs => tsize c + tsizeList cs
end

/-- A per-depth accumulator entry of `compute_depth_stats`:
`{"nodeCount": .., "totalPois": .., "sumChunkKm": ..}`. -/
structure DepthEntry where
  nodeCount : ℕ
  totalPois : ℕ
  sumChunkKm : ℚ

/-- A finalized per-depth entry: `sumChunkKm` is replaced by `avgChunkKm`. -/
structure DepthStatsEntry where
  nodeCount : ℕ
  totalPois : ℕ
  avgChunkKm : ℚ

/-- The read `node.chunkSizeKm` performed by `compute_depth_stats`.
`QuadtreeNode.__init__` assigns only `bbox`, `data`, `children`, `poiCount`
and `averagePosition`, and no other code in the repository ever sets a
`chunkSizeKm` attribute, so in Python this read raises `AttributeError`;
it is embedded as the corresponding `Except.error`. -/
def chunkSizeKm (_node : QuadtreeNode) : Except String ℚ :=
  Except.error "AttributeError: QuadtreeNode object has no attribute chunkSizeKm"

/-- Total node count of a breadth-first queue, the termination measure of
`statsLoop`. -/
def queueSize (queue : List (QuadtreeNode × ℕ)) : ℕ :=
  (queue.map fun e => tsize e.1).sum

theorem tsizeList_eq_sum (cs : List QuadtreeNode) : tsizeList cs = (cs.map tsize).sum := by
  induction cs with
  | nil => simp [tsizeList]
  | cons c cs ih => simp [tsizeList, ih]

theorem tsize_eq (t : QuadtreeNode) : tsize t = 1 + tsizeList t.children := by
  cases t
  simp [tsize, QuadtreeNode.children]

/-- The `while queue:` loop of `compute_depth_stats`: pop the front, update
the depth bucket (`nodeCount += 1`, `totalPois += node.poiCount`,
`sumChunkKm += node.chunkSizeKm`, the last read failing), then enqueue the
children one level deeper. -/
def statsLoop : List (QuadtreeNode × ℕ) → (ℕ → Option DepthEntry) →
    Except String (ℕ → Option DepthEntry)
  | [], stats => Except.ok stats
  | (node, depth) :: rest, stats => do
    let entry := (stats depth).getD ⟨0, 0, 0⟩
    let c ← chunkSizeKm node
    let entry2 : DepthEntry :=
      ⟨entry.nodeCount + 1, entry.totalPois + node.poiCount, entry.sumChunkKm + c⟩
    statsLoop (rest ++ node.children.map fun ch => (ch, depth + 1))
      (fun d => if d = depth then some entry2 else stats d)
termination_by queue _ => queueSize queue
decreasing_by
  have h1 : tsize node = 1 + tsizeList node.children := tsize_eq node
  have h2 : tsizeList node.children = (node.children.map tsize).sum :=
    tsizeList_eq_sum node.children
  have h3 : ((node.children.map fun ch => (ch, depth + 1)).map fun e => tsize e.1)
      = node.children.map tsize := by
    simp [List.map_map, Function.comp_def]
  simp only [queueSize, List.map_append, List.sum_append, List.map_cons, List.sum_cons, h3]
  omega

/-- The finalization pass: `avgChunkKm = sumChunkKm / nodeCount` when
`nodeCount` is non-zero, else `0.0`, and `sumChunkKm` is dropped. -/
def finalizeStats (stats : ℕ → Option DepthEntry) : ℕ → Option DepthStatsEntry :=
  fun d => (stats d).map fun e =>
    ⟨e.nodeCount, e.totalPois, if e.nodeCount ≠ 0 then e.sumChunkKm / (e.nodeCount : ℚ) else 0⟩

/-- Embedding of `compute_depth_stats(root)`: breadth-first accumulation from
the queue `[(root, 0)]` over an empty stats dictionary, then finalization. -/
def compute_depth_stats (root : QuadtreeNode) : Except String (ℕ → Option DepthStatsEntry) :=
  (statsLoop [(root, 0)] fun _ => none).map finalizeStats

mutual
/-- Total number of feature slots held at the leaves of a tree. -/
def leafSum : QuadtreeNode → ℕ
  | .mk _ d [] _ _ => d.length
  | .mk _ _ (c :: cs) _ _ => leafSum c + leafSumList cs
/-- Total number of feature slots held at the leaves of a forest. -/
def leafSumList : List QuadtreeNode → ℕ
  | [] => 0
  | c :: cs => leafSum c + leafSumList cs
end

mutual
/-- Number of occurrences of feature `g` in the leaf data of a tree. -/
def countFeatLeaves (g : Feature) : QuadtreeNode → ℕ
  | .mk _ d [] _ _ => d.count g
  | .mk _ _ (c :: cs) _ _ => countFeatLeaves g c + countFeatLeavesList g cs
/-- Number of occurrences of feature `g` in the leaf data of a forest. -/
def countFeatLeavesList (g : Feature) : List QuadtreeNode → ℕ
  | [] => 0
  | c :: cs => countFeatLeaves g c + countFeatLeavesList g cs
end

/-- `heightLeB n t`: every node of `t` lies at depth at most `n` below `t`. -/
def heightLeB : ℕ → QuadtreeNode → Bool
  | 0, t => t.children.isEmpty
  | n + 1, t => t.children.all fun c => heightLeB n c

/-- `capOkB m fuel t`: every leaf strictly above the depth floor (that is,
reached while `fuel > 0` levels of subdivision were still allowed) holds at
most `m` features. -/
def capOkB (m : ℕ) : ℕ → QuadtreeNode → Bool
  | 0, _ => true
  | n + 1, t =>
    (if t.children.isEmpty then decide (t.poiCount ≤ m) else true)
      && t.children.all fun c => capOkB m n c

/-- `AllNodes P t`: the predicate `P` holds at every node of the tree `t`. -/
inductive AllNodes (P : QuadtreeNode → Prop) : QuadtreeNode → Prop where
  | node : ∀ t, P t → (∀ c ∈ t.children, AllNodes P c) → AllNodes P t

/-- Weighted longitude contribution of a child to its parent average, as the
specification words it: a child with `pointCount = 0` contributes nothing. -/
def wLon (c : QuadtreeNode) : ℚ :=
  if c.poiCount = 0 then 0 else (c.averagePosition.getD (0, 0)).1 * c.poiCount

/-- Weighted latitude contribution of a child to its parent average. -/
def wLat (c : QuadtreeNode) : ℚ :=
  if c.poiCount = 0 then 0 else (c.averagePosition.getD (0, 0)).2 * c.poiCount

/-- The aggregation postcondition at one node, as the specification states it:
a leaf with `n` features has `pointCount = n` and `averagePosition` the
arithmetic mean of its own coordinates (`none` when `n = 0`); an internal node
has `pointCount` the sum of all children's counts and `averagePosition` the
count-weighted mean of the children's averages, zero-count children
contributing nothing, `none` when the total is `0`. -/
def AggOk (t : QuadtreeNode) : Prop :=
  if t.children.isEmpty then
    t.poiCount = t.data.length ∧
    t.averagePosition = (if t.data.length = 0 then none else
      some (sumLon t.data / (t.data.length : ℚ), sumLat t.data / (t.data.length : ℚ)))
  else
    t.poiCount = (t.children.map QuadtreeNode.poiCount).sum ∧
    t.averagePosition = (if t.poiCount = 0 then none else
      some ((t.children.map wLon).sum / (t.poiCount : ℚ),
            (t.children.map wLat).sum / (t.poiCount : ℚ)))

/-- Structural invariant at one node: being a leaf is having no children, an
internal node holds no direct data and has between 1 and 4 children. -/
def StructOk (t : QuadtreeNode) : Prop :=
  (t.isLeaf = true ↔ t.children = []) ∧
  (t.children ≠ [] → t.data = [] ∧ 1 ≤ t.children.length ∧ t.children.length ≤ 4)

/-- Working invariant of built trees: the aggregation postcondition together
with definedness of `averagePosition` exactly on nodes with positive count. -/
def GoodNode (t : QuadtreeNode) : Prop :=
  AggOk t ∧ (t.averagePosition.isSome = true ↔ 0 < t.poiCount)

/-! Basic lemmas about the embedded operations. -/

@[simp]
theorem QuadtreeNode.bbox_mk (b d cs p a) : (QuadtreeNode.mk b d cs p a).bbox = b := rfl

@[simp]
theorem QuadtreeNode.data_mk (b d cs p a) : (QuadtreeNode.mk b d cs p a).data = d := rfl

@[simp]
theorem QuadtreeNode.children_mk (b d cs p a) : (QuadtreeNode.mk b d cs p a).children = cs := rfl

@[simp]
theorem QuadtreeNode.poiCount_mk (b d cs p a) : (QuadtreeNode.mk b d cs p a).poiCount = p := rfl

@[simp]
theorem QuadtreeNode.averagePosition_mk (b d cs p a) :
    (QuadtreeNode.mk b d cs p a).averagePosition = a := rfl

theorem computeAvgList_eq_map (cs : List QuadtreeNode) :
    computeAvgList cs = cs.map compute_average_position := by
  induction cs with
  | nil => simp [computeAvgList]
  | cons c cs ih => simp [computeAvgList, ih]

theorem computeAvgList_fixed {cs : List QuadtreeNode}
    (h : ∀ x ∈ cs, compute_average_position x = x) : computeAvgList cs = cs := by
  rw [computeAvgList_eq_map]
  exact List.map_congr_left h |>.trans (List.map_id cs)

theorem computeAvg_nil (b : Quad) (d : List Feature) (p : ℕ) (a : Option (ℚ × ℚ)) :
    compute_average_position (.mk b d [] p a) =
      if 0 < d.length then
        QuadtreeNode.mk b d [] d.length
          (some (sumLon d / (d.length : ℚ), sumLat d / (d.length : ℚ)))
      else QuadtreeNode.mk b d [] p a := by
  simp [compute_average_position, computeAvgList]

theorem computeAvg_internal {cs : List QuadtreeNode} (b : Quad) (d : List Feature)
    (p : ℕ) (a : Option (ℚ × ℚ)) (hne : cs ≠ [])
    (hfix : ∀ x ∈ cs, compute_average_position x = x) :
    compute_average_position (.mk b d cs p a) =
      QuadtreeNode.mk b d cs (weightedSums cs).2.2
        (if 0 < (weightedSums cs).2.2 then
          some ((weightedSums cs).1 / ((weightedSums cs).2.2 : ℚ),
                (weightedSums cs).2.1 / ((weightedSums cs).2.2 : ℚ))
         else a) := by
  have hl : computeAvgList cs = cs := computeAvgList_fixed hfix
  simp [compute_average_position, hl, hne]

theorem tsize_le_of_mem {c : QuadtreeNode} {cs : List QuadtreeNode} (h : c ∈ cs) :
    tsize c ≤ tsizeList cs := by
  induction cs with
  | nil => simp at h
  | cons x xs ih =>
    rcases List.mem_cons.mp h with h | h
    · subst h
      simp only [tsizeList]
      omega
    · have := ih h
      simp only [tsizeList]
      omega

/-- Induction principle for the nested tree type: to prove `P` everywhere it
suffices to prove it at a node assuming it on all children. -/
theorem QuadtreeNode.strongInduction {P : QuadtreeNode → Prop}
    (step : ∀ t : QuadtreeNode, (∀ c ∈ t.children, P c) → P t) : ∀ t, P t
  | .mk b d cs p a =>
    step (.mk b d cs p a) (fun c hc => QuadtreeNode.strongInduction step c)
termination_by t => tsize t
decreasing_by
  have h1 : tsize c ≤ tsizeList cs := tsize_le_of_mem (by simpa using hc)
  have h2 : tsize (QuadtreeNode.mk b d cs p a) = 1 + tsizeList cs := by
    simp [tsize]
  omega

theorem computeAvg_idem (t : QuadtreeNode) :
    compute_average_position (compute_average_position t) = compute_average_position t := by
  induction t using QuadtreeNode.strongInduction with
  | step t ih =>
    obtain ⟨b, d, cs, p, a⟩ := t
    simp only [QuadtreeNode.children_mk] at ih
    cases cs with
    | nil =>
      rw [computeAvg_nil]
      split
      · rw [computeAvg_nil]
        simp_all
      · rw [computeAvg_nil]
        simp_all
    | cons c0 cs0 =>
      have hfix : ∀ x ∈ computeAvgList (c0 :: cs0), compute_average_position x = x := by
        intro x hx
        rw [computeAvgList_eq_map] at hx
        rcases List.mem_map.mp hx with ⟨y, hy, rfl⟩
        exact ih y hy
      have hne : computeAvgList (c0 :: cs0) ≠ [] := by
        simp [computeAvgList]
      have h1 : compute_average_position (QuadtreeNode.mk b d (c0 :: cs0) p a) =
          QuadtreeNode.mk b d (computeAvgList (c0 :: cs0)) (weightedSums (computeAvgList (c0 :: cs0))).2.2
            (if 0 < (weightedSums (computeAvgList (c0 :: cs0))).2.2 then
              some ((weightedSums (computeAvgList (c0 :: cs0))).1 / ((weightedSums (computeAvgList (c0 :: cs0))).2.2 : ℚ),
                    (weightedSums (computeAvgList (c0 :: cs0))).2.1 / ((weightedSums (computeAvgList (c0 :: cs0))).2.2 : ℚ))
             else a) := by
        simp [compute_average_position, hne]
      rw [h1, computeAvg_internal b d _ _ hne hfix]
      split
      · rfl
      · rfl

theorem buildFuel_zero (m : ℕ) (feats : List Feature) (box : Quad) :
    buildFuel m 0 feats box = compute_average_position (.mk box feats [] 0 none) := rfl

theorem buildFuel_succ (m fuel : ℕ) (feats : List Feature) (box : Quad) :
    buildFuel m (fuel + 1) feats box =
      if feats.length ≤ m then
        compute_average_position (.mk box feats [] 0 none)
      else
        let children := box.subdivide_into_quadrants.filterMap fun sub_box =>
          let bucket := feats.filter fun f => sub_box.contains_feature f
          if bucket.isEmpty then none
          else some (buildFuel m fuel bucket sub_box)
        compute_average_position
          (.mk box (if children.isEmpty then feats else []) children 0 none) := rfl

theorem buildFuel_fixed (m fuel : ℕ) (feats : List Feature) (box : Quad) :
    compute_average_position (buildFuel m fuel feats box) = buildFuel m fuel feats box := by
  cases fuel with
  | zero => exact computeAvg_idem _
  | succ n =>
    rw [buildFuel_succ]
    split
    · exact computeAvg_idem _
    · exact computeAvg_idem _

theorem weightedSums_foldl (cs : List QuadtreeNode) (acc : ℚ × ℚ × ℕ) :
    cs.foldl (fun acc c =>
        let t := childContribution c
        (acc.1 + t.1, acc.2.1 + t.2.1, acc.2.2 + t.2.2)) acc
      = (acc.1 + (cs.map fun c => (childContribution c).1).sum,
         acc.2.1 + (cs.map fun c => (childContribution c).2.1).sum,
         acc.2.2 + (cs.map fun c => (childContribution c).2.2).sum) := by
  induction cs generalizing acc with
  | nil => simp
  | cons c cs ih =>
    simp only [List.foldl_cons, ih, List.map_cons, List.sum_cons]
    refine Prod.ext ?_ (Prod.ext ?_ ?_)
    · simp [add_assoc]
    · simp [add_assoc]
    · simp [add_assoc]

theorem weightedSums_eq (cs : List QuadtreeNode) :
    weightedSums cs = ((cs.map fun c => (childContribution c).1).sum,
                       (cs.map fun c => (childContribution c).2.1).sum,
                       (cs.map fun c => (childContribution c).2.2).sum) := by
  simpa [weightedSums] using weightedSums_foldl cs (0, 0, 0)

theorem childContribution_of_good {c : QuadtreeNode} (h : GoodNode c) :
    childContribution c = (wLon c, wLat c, c.poiCount) := by
  obtain ⟨-, hiff⟩ := h
  unfold childContribution wLon wLat
  cases hav : c.averagePosition with
  | none =>
    have hz : c.poiCount = 0 := by
      rw [hav] at hiff
      simp at hiff
      omega
    simp [hz]
  | some v =>
    have hp : 0 < c.poiCount := by
      rw [hav] at hiff
      simpa using hiff.mp rfl
    simp [hp, Nat.pos_iff_ne_zero.mp hp]

theorem AllNodes.self {P : QuadtreeNode → Prop} {t : QuadtreeNode} (h : AllNodes P t) : P t := by
  cases h
  assumption

theorem AllNodes.child {P : QuadtreeNode → Prop} {t : QuadtreeNode} (h : AllNodes P t) :
    ∀ c ∈ t.children, AllNodes P c := by
  cases h
  assumption

theorem AllNodes.imp {P Q : QuadtreeNode → Prop} (h : ∀ t, P t → Q t) {t : QuadtreeNode}
    (ht : AllNodes P t) : AllNodes Q t := by
  induction ht with
  | node t hp hc ih => exact .node t (h t hp) ih

theorem computeAvg_fresh (b : Quad) (d : List Feature) (cs : List QuadtreeNode)
    (hfix : ∀ x ∈ cs, compute_average_position x = x)
    (hgood : ∀ x ∈ cs, GoodNode x) :
    GoodNode (compute_average_position (.mk b d cs 0 none)) ∧
    (compute_average_position (.mk b d cs 0 none)).children = cs ∧
    (compute_average_position (.mk b d cs 0 none)).data = d := by
  cases cs with
  | nil =>
    rw [computeAvg_nil]
    by_cases hd : 0 < d.length
    · simp only [hd, if_true]
      refine ⟨⟨?_, ?_⟩, rfl, rfl⟩
      · unfold AggOk
        simp [Nat.pos_iff_ne_zero.mp hd]
      · simp [hd]
    · have hd0 : d.length = 0 := by omega
      simp only [hd, if_false]
      refine ⟨⟨?_, ?_⟩, rfl, rfl⟩
      · unfold AggOk
        simp [hd0]
      · simp [hd0]
  | cons c0 cs0 =>
    have hne : (c0 :: cs0) ≠ ([] : List QuadtreeNode) := by simp
    rw [computeAvg_internal b d 0 none hne hfix]
    have hws := weightedSums_eq (c0 :: cs0)
    have hcc : ∀ x ∈ (c0 :: cs0), childContribution x = (wLon x, wLat x, x.poiCount) :=
      fun x hx => childContribution_of_good (hgood x hx)
    have hT : (weightedSums (c0 :: cs0)).2.2 = ((c0 :: cs0).map QuadtreeNode.poiCount).sum := by
      rw [hws]
      simp only
      congr 1
      exact List.map_congr_left fun x hx => by rw [hcc x hx]
    have hS1 : (weightedSums (c0 :: cs0)).1 = ((c0 :: cs0).map wLon).sum := by
      rw [hws]
      simp only
      congr 1
      exact List.map_congr_left fun x hx => by rw [hcc x hx]
    have hS2 : (weightedSums (c0 :: cs0)).2.1 = ((c0 :: cs0).map wLat).sum := by
      rw [hws]
      simp only
      congr 1
      exact List.map_congr_left fun x hx => by rw [hcc x hx]
    refine ⟨⟨?_, ?_⟩, rfl, rfl⟩
    · unfold AggOk
      simp only [QuadtreeNode.children_mk, QuadtreeNode.poiCount_mk, QuadtreeNode.data_mk,
        QuadtreeNode.averagePosition_mk, List.isEmpty_cons, Bool.false_eq_true, if_false]
      refine ⟨hT, ?_⟩
      rw [hS1, hS2, hT]
      have hsplit : ((c0 :: cs0).map QuadtreeNode.poiCount).sum
          = c0.poiCount + (cs0.map QuadtreeNode.poiCount).sum := by simp
      rcases Nat.eq_zero_or_pos (((c0 :: cs0).map QuadtreeNode.poiCount).sum) with hz | hp
      · have h1 : c0.poiCount = 0 := by omega
        have h2 : (cs0.map QuadtreeNode.poiCount).sum = 0 := by omega
        simp [h1, h2]
      · have h3 : 0 < c0.poiCount ∨ 0 < (cs0.map QuadtreeNode.poiCount).sum := by omega
        have h4 : ¬(c0.poiCount = 0 ∧ (cs0.map QuadtreeNode.poiCount).sum = 0) := by omega
        simp [h3, h4]
    · simp only [QuadtreeNode.averagePosition_mk, QuadtreeNode.poiCount_mk, hT]
      rcases Nat.eq_zero_or_pos (((c0 :: cs0).map QuadtreeNode.poiCount).sum) with hz | hp
      · simp [hz]
      · simp [hp]

theorem buildFuel_succ2 (m fuel : ℕ) (feats : List Feature) (box : Quad) :
    buildFuel m (fuel + 1) feats box =
      if feats.length ≤ m then
        compute_average_position (.mk box feats [] 0 none)
      else
        compute_average_position
          (.mk box (if (buildChildren m fuel feats box).isEmpty then feats else [])
            (buildChildren m fuel feats box) 0 none) := rfl

theorem mem_buildChildren {m n : ℕ} {feats : List Feature} {box : Quad} {x : QuadtreeNode}
    (hx : x ∈ buildChildren m n feats box) :
    ∃ q ∈ box.subdivide_into_quadrants,
      x = buildFuel m n (feats.filter fun f => q.contains_feature f) q ∧
      (feats.filter fun f => q.contains_feature f) ≠ [] := by
  rcases List.mem_filterMap.mp hx with ⟨q, hq, hfq⟩
  simp only at hfq
  by_cases hb : (feats.filter fun f => q.contains_feature f).isEmpty = true
  · simp [hb] at hfq
  · have hb2 : (feats.filter fun f => q.contains_feature f).isEmpty = false := by
      simpa using hb
    simp only [hb2, Bool.false_eq_true, if_false, Option.some.injEq] at hfq
    refine ⟨q, hq, hfq.symm, ?_⟩
    intro hnil
    rw [hnil] at hb2
    simp at hb2

theorem buildFuel_allGood (m : ℕ) :
    ∀ (fuel : ℕ) (feats : List Feature) (box : Quad),
      AllNodes GoodNode (buildFuel m fuel feats box) := by
  intro fuel
  induction fuel with
  | zero =>
    intro feats box
    rw [buildFuel_zero]
    obtain ⟨hg, hch, -⟩ := computeAvg_fresh box feats [] (by simp) (by simp)
    refine .node _ hg ?_
    rw [hch]
    simp
  | succ n ih =>
    intro feats box
    rw [buildFuel_succ2]
    split
    · obtain ⟨hg, hch, -⟩ := computeAvg_fresh box feats [] (by simp) (by simp)
      refine .node _ hg ?_
      rw [hch]
      simp
    · have hmem : ∀ x ∈ buildChildren m n feats box,
          ∃ q, x = buildFuel m n (feats.filter fun f => q.contains_feature f) q := by
        intro x hx
        rcases mem_buildChildren hx with ⟨q, -, hxe, -⟩
        exact ⟨q, hxe⟩
      have hfix : ∀ x ∈ buildChildren m n feats box, compute_average_position x = x := by
        intro x hx
        rcases hmem x hx with ⟨q, rfl⟩
        exact buildFuel_fixed m n _ q
      have hgood : ∀ x ∈ buildChildren m n feats box, GoodNode x := by
        intro x hx
        rcases hmem x hx with ⟨q, rfl⟩
        exact (ih _ _).self
      have hall : ∀ x ∈ buildChildren m n feats box, AllNodes GoodNode x := by
        intro x hx
        rcases hmem x hx with ⟨q, rfl⟩
        exact ih _ _
      obtain ⟨hg, hch, -⟩ :=
        computeAvg_fresh box (if (buildChildren m n feats box).isEmpty then feats else [])
          (buildChildren m n feats box) hfix hgood
      refine .node _ hg ?_
      rw [hch]
      exact hall

theorem contains_of_mem_subdivide {box q : Quad} {g : Feature}
    (hq : q ∈ box.subdivide_into_quadrants) (h : q.contains_feature g = true) :
    box.contains_feature g = true := by
  simp only [Quad.subdivide_into_quadrants, List.mem_cons, List.not_mem_nil, or_false] at hq
  simp only [Quad.contains_feature, Bool.and_eq_true, decide_eq_true_eq] at h ⊢
  rcases hq with rfl | rfl | rfl | rfl <;>
    obtain ⟨⟨h1, h2⟩, h3, h4⟩ := h <;>
    exact ⟨⟨by linarith, by linarith⟩, by linarith, by linarith⟩

theorem contains_subdivide_cover {box : Quad} {g : Feature}
    (h : box.contains_feature g = true) :
    ∃ q ∈ box.subdivide_into_quadrants, q.contains_feature g = true := by
  simp only [Quad.contains_feature, Bool.and_eq_true, decide_eq_true_eq] at h
  obtain ⟨⟨h1, h2⟩, h3, h4⟩ := h
  rcases le_total g.lat ((box.south + box.north) / 2) with hlat | hlat <;>
    rcases le_total g.lon ((box.west + box.east) / 2) with hlon | hlon
  · refine ⟨⟨box.south, box.west, (box.south + box.north) / 2, (box.west + box.east) / 2⟩,
      by simp [Quad.subdivide_into_quadrants], ?_⟩
    simp only [Quad.contains_feature, Bool.and_eq_true, decide_eq_true_eq]
    exact ⟨⟨h1, hlat⟩, h3, hlon⟩
  · refine ⟨⟨box.south, (box.west + box.east) / 2, (box.south + box.north) / 2, box.east⟩,
      by simp [Quad.subdivide_into_quadrants], ?_⟩
    simp only [Quad.contains_feature, Bool.and_eq_true, decide_eq_true_eq]
    exact ⟨⟨h1, hlat⟩, hlon, h4⟩
  · refine ⟨⟨(box.south + box.north) / 2, box.west, box.north, (box.west + box.east) / 2⟩,
      by simp [Quad.subdivide_into_quadrants], ?_⟩
    simp only [Quad.contains_feature, Bool.and_eq_true, decide_eq_true_eq]
    exact ⟨⟨hlat, h2⟩, h3, hlon⟩
  · refine ⟨⟨(box.south + box.north) / 2, (box.west + box.east) / 2, box.north, box.east⟩,
      by simp [Quad.subdivide_into_quadrants], ?_⟩
    simp only [Quad.contains_feature, Bool.and_eq_true, decide_eq_true_eq]
    exact ⟨⟨hlat, h2⟩, hlon, h4⟩

theorem buildChildren_fix (m n : ℕ) (feats : List Feature) (box : Quad) :
    ∀ x ∈ buildChildren m n feats box, compute_average_position x = x := by
  intro x hx
  rcases mem_buildChildren hx with ⟨q, -, rfl, -⟩
  exact buildFuel_fixed m n _ q

theorem buildChildren_good (m n : ℕ) (feats : List Feature) (box : Quad) :
    ∀ x ∈ buildChildren m n feats box, GoodNode x := by
  intro x hx
  rcases mem_buildChildren hx with ⟨q, -, rfl, -⟩
  exact (buildFuel_allGood m n _ q).self

theorem buildFuel_leaf_fields (m fuel : ℕ) (feats : List Feature) (box : Quad)
    (hleaf : fuel = 0 ∨ feats.length ≤ m) :
    (buildFuel m fuel feats box).children = [] ∧
    (buildFuel m fuel feats box).data = feats ∧
    (buildFuel m fuel feats box).poiCount = feats.length := by
  have hshape : buildFuel m fuel feats box = compute_average_position (.mk box feats [] 0 none) := by
    rcases hleaf with rfl | hle
    · rfl
    · cases fuel with
      | zero => rfl
      | succ n => rw [buildFuel_succ2, if_pos hle]
  rw [hshape, computeAvg_nil]
  by_cases hd : 0 < feats.length
  · rw [if_pos hd]
    exact ⟨rfl, rfl, rfl⟩
  · rw [if_neg hd]
    exact ⟨rfl, rfl, by simp; omega⟩

theorem buildFuel_split_fields (m n : ℕ) (feats : List Feature) (box : Quad)
    (hlen : ¬ feats.length ≤ m) :
    (buildFuel m (n + 1) feats box).children = buildChildren m n feats box ∧
    (buildFuel m (n + 1) feats box).data =
      (if (buildChildren m n feats box).isEmpty then feats else []) := by
  rw [buildFuel_succ2, if_neg hlen]
  obtain ⟨-, hch, hdat⟩ :=
    computeAvg_fresh box (if (buildChildren m n feats box).isEmpty then feats else [])
      (buildChildren m n feats box) (buildChildren_fix m n feats box)
      (buildChildren_good m n feats box)
  exact ⟨hch, hdat⟩

theorem buildChildren_ne_nil {m n : ℕ} {feats : List Feature} {box : Quad}
    (hne : feats ≠ []) (hin : ∀ g ∈ feats, box.contains_feature g = true) :
    buildChildren m n feats box ≠ [] := by
  obtain ⟨g0, hg0⟩ := List.exists_mem_of_ne_nil feats hne
  rcases contains_subdivide_cover (hin g0 hg0) with ⟨q, hq, hcq⟩
  intro hnil
  rw [buildChildren, List.filterMap_eq_nil_iff] at hnil
  have hnone := hnil q hq
  simp only at hnone
  have hgin : g0 ∈ feats.filter fun f => q.contains_feature f :=
    List.mem_filter.mpr ⟨hg0, hcq⟩
  by_cases hb : (feats.filter fun f => q.contains_feature f).isEmpty = true
  · rw [List.isEmpty_iff.mp hb] at hgin
    simp at hgin
  · simp [hb] at hnone

theorem leafSumList_eq_sum (cs : List QuadtreeNode) :
    leafSumList cs = (cs.map leafSum).sum := by
  induction cs with
  | nil => simp [leafSumList]
  | cons c cs ih => simp [leafSumList, ih]

theorem leafSum_eq (t : QuadtreeNode) :
    leafSum t = if t.children.isEmpty then t.data.length else (t.children.map leafSum).sum := by
  obtain ⟨b, d, cs, p, a⟩ := t
  cases cs with
  | nil => simp [leafSum]
  | cons c0 cs0 => simp [leafSum, leafSumList_eq_sum]

theorem countFeatLeavesList_eq_sum (g : Feature) (cs : List QuadtreeNode) :
    countFeatLeavesList g cs = (cs.map (countFeatLeaves g)).sum := by
  induction cs with
  | nil => simp [countFeatLeavesList]
  | cons c cs ih => simp [countFeatLeavesList, ih]

theorem countFeatLeaves_eq (g : Feature) (t : QuadtreeNode) :
    countFeatLeaves g t =
      if t.children.isEmpty then t.data.count g
      else (t.children.map (countFeatLeaves g)).sum := by
  obtain ⟨b, d, cs, p, a⟩ := t
  cases cs with
  | nil => simp [countFeatLeaves]
  | cons c0 cs0 => simp [countFeatLeaves, countFeatLeavesList_eq_sum]

theorem poiCount_eq_leafSum : ∀ t : QuadtreeNode, AllNodes GoodNode t → t.poiCount = leafSum t := by
  intro t
  induction t using QuadtreeNode.strongInduction with
  | step t ih =>
    intro h
    have hAgg : AggOk t := h.self.1
    rw [leafSum_eq]
    unfold AggOk at hAgg
    by_cases hch : t.children.isEmpty = true
    · rw [if_pos hch]
      rw [if_pos hch] at hAgg
      exact hAgg.1
    · rw [if_neg hch]
      rw [if_neg hch] at hAgg
      rw [hAgg.1]
      congr 1
      exact List.map_congr_left fun c hc => ih c hc (h.child c hc)

theorem countFeatLeaves_not_mem (m : ℕ) (g : Feature) :
    ∀ (fuel : ℕ) (feats : List Feature) (box : Quad), g ∉ feats →
      countFeatLeaves g (buildFuel m fuel feats box) = 0 := by
  intro fuel
  induction fuel with
  | zero =>
    intro feats box hg
    obtain ⟨hch, hdat, -⟩ := buildFuel_leaf_fields m 0 feats box (Or.inl rfl)
    rw [countFeatLeaves_eq, hch, hdat]
    simp [List.count_eq_zero.mpr hg]
  | succ n ih =>
    intro feats box hg
    by_cases hlen : feats.length ≤ m
    · obtain ⟨hch, hdat, -⟩ := buildFuel_leaf_fields m (n + 1) feats box (Or.inr hlen)
      rw [countFeatLeaves_eq, hch, hdat]
      simp [List.count_eq_zero.mpr hg]
    · obtain ⟨hch, hdat⟩ := buildFuel_split_fields m n feats box hlen
      rw [countFeatLeaves_eq, hch, hdat]
      by_cases hbe : (buildChildren m n feats box).isEmpty = true
      · simp [hbe, List.count_eq_zero.mpr hg]
      · have hbe2 : (buildChildren m n feats box).isEmpty = false := by simpa using hbe
        rw [hbe2]
        simp only [Bool.false_eq_true, if_false]
        apply List.sum_eq_zero
        intro x hx
        rcases List.mem_map.mp hx with ⟨c, hc, rfl⟩
        rcases mem_buildChildren hc with ⟨q, -, rfl, -⟩
        apply ih
        intro hmem
        exact hg (List.mem_filter.mp hmem).1

theorem countFeatLeaves_build_out (m fuel : ℕ) (feats : List Feature) (box : Quad) (g : Feature)
    (hout : box.contains_feature g = false) :
    countFeatLeaves g (buildFuel m fuel feats box) =
      if (buildFuel m fuel feats box).children.isEmpty then feats.count g else 0 := by
  have hdrop : ∀ q ∈ box.subdivide_into_quadrants,
      g ∉ feats.filter fun f => q.contains_feature f := by
    intro q hq hmem
    have := contains_of_mem_subdivide hq (List.mem_filter.mp hmem).2
    rw [hout] at this
    exact Bool.false_ne_true this
  rcases Nat.eq_zero_or_pos fuel with rfl | hpos
  · obtain ⟨hch, hdat, -⟩ := buildFuel_leaf_fields m 0 feats box (Or.inl rfl)
    rw [countFeatLeaves_eq, hch, hdat]
    simp
  · obtain ⟨n, rfl⟩ : ∃ n, fuel = n + 1 := ⟨fuel - 1, by omega⟩
    by_cases hlen : feats.length ≤ m
    · obtain ⟨hch, hdat, -⟩ := buildFuel_leaf_fields m (n + 1) feats box (Or.inr hlen)
      rw [countFeatLeaves_eq, hch, hdat]
      simp
    · obtain ⟨hch, hdat⟩ := buildFuel_split_fields m n feats box hlen
      rw [countFeatLeaves_eq, hch, hdat]
      by_cases hbe : (buildChildren m n feats box).isEmpty = true
      · simp [hbe]
      · have hbe2 : (buildChildren m n feats box).isEmpty = false := by simpa using hbe
        rw [hbe2]
        simp only [Bool.false_eq_true, if_false]
        apply List.sum_eq_zero
        intro x hx
        rcases List.mem_map.mp hx with ⟨c, hc, rfl⟩
        rcases mem_buildChildren hc with ⟨q, hq, rfl, -⟩
        exact countFeatLeaves_not_mem m g n _ q (hdrop q hq)

theorem buildFuel_heightLe (m : ℕ) :
    ∀ (fuel : ℕ) (feats : List Feature) (box : Quad),
      heightLeB fuel (buildFuel m fuel feats box) = true := by
  intro fuel
  induction fuel with
  | zero =>
    intro feats box
    obtain ⟨hch, -, -⟩ := buildFuel_leaf_fields m 0 feats box (Or.inl rfl)
    simp [heightLeB, hch]
  | succ n ih =>
    intro feats box
    by_cases hlen : feats.length ≤ m
    · obtain ⟨hch, -, -⟩ := buildFuel_leaf_fields m (n + 1) feats box (Or.inr hlen)
      simp [heightLeB, hch]
    · obtain ⟨hch, -⟩ := buildFuel_split_fields m n feats box hlen
      simp only [heightLeB, hch, List.all_eq_true]
      intro x hx
      rcases mem_buildChildren hx with ⟨q, -, rfl, -⟩
      exact ih _ q

theorem buildFuel_capOk (m : ℕ) :
    ∀ (fuel : ℕ) (feats : List Feature) (box : Quad),
      (∀ g ∈ feats, box.contains_feature g = true) →
      capOkB m fuel (buildFuel m fuel feats box) = true := by
  intro fuel
  induction fuel with
  | zero => intro feats box _; rfl
  | succ n ih =>
    intro feats box hin
    by_cases hlen : feats.length ≤ m
    · obtain ⟨hch, -, hcount⟩ := buildFuel_leaf_fields m (n + 1) feats box (Or.inr hlen)
      simp [capOkB, hch, hcount, hlen]
    · have hne : feats ≠ [] := by
        intro h
        rw [h] at hlen
        simp at hlen
      have hcne : buildChildren m n feats box ≠ [] := buildChildren_ne_nil hne hin
      obtain ⟨hch, -⟩ := buildFuel_split_fields m n feats box hlen
      have hbe : (buildChildren m n feats box).isEmpty = false := by
        rcases hx : buildChildren m n feats box with _ | ⟨c, cs⟩
        · exact absurd hx hcne
        · simp
      simp only [capOkB, hch, hbe, Bool.false_eq_true, if_false, Bool.true_and,
        List.all_eq_true]
      intro x hx
      rcases mem_buildChildren hx with ⟨q, -, rfl, -⟩
      apply ih
      intro g hg
      exact (List.mem_filter.mp hg).2

theorem buildFuel_children_iff (m fuel : ℕ) (feats : List Feature) (box : Quad)
    (hin : ∀ g ∈ feats, box.contains_feature g = true) :
    (buildFuel m fuel feats box).children = [] ↔ (fuel = 0 ∨ feats.length ≤ m) := by
  constructor
  · intro hch
    by_contra hcon
    push_neg at hcon
    obtain ⟨hf, hlen⟩ := hcon
    obtain ⟨n, rfl⟩ : ∃ n, fuel = n + 1 := ⟨fuel - 1, by omega⟩
    have hne : feats ≠ [] := by
      intro h
      rw [h] at hlen
      simp at hlen
    obtain ⟨hch2, -⟩ := buildFuel_split_fields m n feats box (by omega)
    rw [hch2] at hch
    exact buildChildren_ne_nil hne hin hch
  · intro h
    exact (buildFuel_leaf_fields m fuel feats box h).1

theorem isLeaf_iff (t : QuadtreeNode) : t.isLeaf = true ↔ t.children = [] := by
  simp [QuadtreeNode.isLeaf, List.isEmpty_iff]

theorem subdivide_length (q : Quad) : q.subdivide_into_quadrants.length = 4 := by
  simp [Quad.subdivide_into_quadrants]

theorem buildFuel_allStruct (m : ℕ) :
    ∀ (fuel : ℕ) (feats : List Feature) (box : Quad),
      AllNodes StructOk (buildFuel m fuel feats box) := by
  intro fuel
  induction fuel with
  | zero =>
    intro feats box
    obtain ⟨hch, -, -⟩ := buildFuel_leaf_fields m 0 feats box (Or.inl rfl)
    refine .node _ ⟨isLeaf_iff _, fun h => absurd hch h⟩ ?_
    rw [hch]
    simp
  | succ n ih =>
    intro feats box
    by_cases hlen : feats.length ≤ m
    · obtain ⟨hch, -, -⟩ := buildFuel_leaf_fields m (n + 1) feats box (Or.inr hlen)
      refine .node _ ⟨isLeaf_iff _, fun h => absurd hch h⟩ ?_
      rw [hch]
      simp
    · obtain ⟨hch, hdat⟩ := buildFuel_split_fields m n feats box hlen
      refine .node _ ⟨isLeaf_iff _, ?_⟩ ?_
      · intro hne
        rw [hch] at hne
        have hbe : (buildChildren m n feats box).isEmpty = false := by
          rcases hx : buildChildren m n feats box with _ | ⟨c, cs⟩
          · exact absurd hx hne
          · simp
        refine ⟨?_, ?_, ?_⟩
        · rw [hdat, hbe]
          simp
        · rw [hch]
          have := List.length_pos.mpr hne
          omega
        · rw [hch]
          calc (buildChildren m n feats box).length
              ≤ box.subdivide_into_quadrants.length := List.length_filterMap_le _ _
            _ = 4 := subdivide_length box
      · rw [hch]
        intro c hc
        rcases mem_buildChildren hc with ⟨q, -, rfl, -⟩
        exact ih _ q

theorem statsLoop_cons_error (node : QuadtreeNode) (depth : ℕ)
    (rest : List (QuadtreeNode × ℕ)) (stats : ℕ → Option DepthEntry) :
    statsLoop ((node, depth) :: rest) stats =
      Except.error "AttributeError: QuadtreeNode object has no attribute chunkSizeKm" := by
  rw [statsLoop]
  rfl

theorem compute_depth_stats_error_eq (root : QuadtreeNode) :
    compute_depth_stats root =
      Except.error "AttributeError: QuadtreeNode object has no attribute chunkSizeKm" := by
  rw [compute_depth_stats, statsLoop_cons_error]
  rfl

theorem contains_feature_iff (q : Quad) (g : Feature) :
    q.contains_feature g = true ↔
      ((q.south ≤ g.lat ∧ g.lat ≤ q.north) ∧ (q.west ≤ g.lon ∧ g.lon ≤ q.east)) := by
  simp [Quad.contains_feature]

theorem contains_mk_iff (s w n e : ℚ) (g : Feature) :
    (Quad.mk s w n e).contains_feature g = true ↔
      ((s ≤ g.lat ∧ g.lat ≤ n) ∧ (w ≤ g.lon ∧ g.lon ≤ e)) :=
  contains_feature_iff ⟨s, w, n, e⟩ g

theorem subdivide_overlap (q : Quad) :
    List.Pairwise
      (fun a b => ∀ g : Feature, a.contains_feature g = true → b.contains_feature g = true →
        g.lat = (q.south + q.north) / 2 ∨ g.lon = (q.west + q.east) / 2)
      q.subdivide_into_quadrants := by
  simp only [Quad.subdivide_into_quadrants]
  refine List.Pairwise.cons ?_ (List.Pairwise.cons ?_ (List.Pairwise.cons ?_
    (List.pairwise_singleton _ _)))
  · intro b hb g h1 h2
    rw [contains_mk_iff] at h1
    obtain ⟨⟨a1, a2⟩, a3, a4⟩ := h1
    simp only [List.mem_cons, List.not_mem_nil, or_false] at hb
    rcases hb with rfl | rfl | rfl <;> rw [contains_mk_iff] at h2 <;>
      obtain ⟨⟨b1, b2⟩, b3, b4⟩ := h2
    · exact Or.inr (le_antisymm a4 b3)
    · exact Or.inl (le_antisymm a2 b1)
    · exact Or.inl (le_antisymm a2 b1)
  · intro b hb g h1 h2
    rw [contains_mk_iff] at h1
    obtain ⟨⟨a1, a2⟩, a3, a4⟩ := h1
    simp only [List.mem_cons, List.not_mem_nil, or_false] at hb
    rcases hb with rfl | rfl <;> rw [contains_mk_iff] at h2 <;>
      obtain ⟨⟨b1, b2⟩, b3, b4⟩ := h2
    · exact Or.inl (le_antisymm a2 b1)
    · exact Or.inl (le_antisymm a2 b1)
  · intro b hb g h1 h2
    rw [contains_mk_iff] at h1
    obtain ⟨⟨a1, a2⟩, a3, a4⟩ := h1
    simp only [List.mem_cons, List.not_mem_nil, or_false] at hb
    subst hb
    rw [contains_mk_iff] at h2
    obtain ⟨⟨b1, b2⟩, b3, b4⟩ := h2
    exact Or.inr (le_antisymm a4 b3)

theorem subdivide_area (q : Quad) :
    (q.subdivide_into_quadrants.map Quad.area).sum = q.area := by
  simp only [Quad.subdivide_into_quadrants, List.map_cons, List.map_nil, List.sum_cons,
    List.sum_nil, Quad.area]
  ring

theorem buildFrom_zero (maxDepth m : ℕ) (feats : List Feature) (box : Quad) :
    buildFrom maxDepth m feats box 0 = buildFuel m maxDepth feats box := by
  simp [buildFrom]

/-! Claim theorems. -/

/-- C1: after building, every leaf node with `n` features has `pointCount = n`
and `averagePosition` the arithmetic mean of its own features' coordinates
(undefined when `n = 0`); every internal node has `pointCount` the sum of its
children's counts and `averagePosition` the count-weighted mean of the
children's averages, zero-count children contributing nothing, and
`averagePosition` stays undefined when the total count is `0`. -/
theorem c1_aggregation_postconditions (maxDepth m : ℕ) (feats : List Feature) (box : Quad) :
    AllNodes AggOk (buildFrom maxDepth m feats box 0) := by
  rw [buildFrom_zero]
  exact AllNodes.imp (fun t ht => ht.1) (buildFuel_allGood m maxDepth feats box)

/-- C2: collecting per-depth stats on a finished tree is NOT total: for every
tree, `compute_depth_stats` raises `AttributeError` on its first node, because
it reads the `chunkSizeKm` attribute that no code ever assigns.  This refutes
the totality claim for the stats pass (building and aggregating themselves are
total functions of the embedding). -/
theorem c2_depth_stats_attribute_error (root : QuadtreeNode) :
    compute_depth_stats root =
      Except.error "AttributeError: QuadtreeNode object has no attribute chunkSizeKm" :=
  compute_depth_stats_error_eq root

/-- C3 counterexample: one feature at `(10, 10)` outside the root box
`(0, 0, 4, 4)` is still counted by the build (the root is a leaf and no
containment filter is applied), so `root.pointCount` differs from the number
of input features inside the root box. -/
theorem c3_counterexample_outside_feature :
    (build_quadtree_for_category [⟨10, 10⟩] ⟨0, 0, 4, 4⟩).poiCount ≠
      (([⟨10, 10⟩] : List Feature).filter fun g => (Quad.mk 0 0 4 4).contains_feature g).length := by
  with_unfolding_all decide

/-- C3 amended: for every finished tree, `root.pointCount` equals the total
number of feature slots stored at the leaves of the tree (which equals the
number of in-box input features only when no feature lies outside the root box
and none is duplicated across an internal split boundary). -/
theorem c3_amended_root_count (maxDepth m : ℕ) (feats : List Feature) (box : Quad) :
    (buildFrom maxDepth m feats box 0).poiCount = leafSum (buildFrom maxDepth m feats box 0) := by
  rw [buildFrom_zero]
  exact poiCount_eq_leafSum _ (buildFuel_allGood m maxDepth feats box)

/-- C4 counterexample: 26 copies of a feature outside the box `(0, 0, 4, 4)`
with `maxPerNode = 25`, `maxDepth = 6`: every quadrant bucket is empty, so the
root remains a leaf at depth `0 < maxDepth` holding `pointCount = 26 > 25`,
refuting both the capacity bound for shallow leaves and the stated
leaf-iff-termination-test equivalence. -/
theorem c4_counterexample_leaf_overflow :
    (build_quadtree_for_category (List.replicate 26 ⟨10, 10⟩) ⟨0, 0, 4, 4⟩).isLeaf = true ∧
    (build_quadtree_for_category (List.replicate 26 ⟨10, 10⟩) ⟨0, 0, 4, 4⟩).poiCount = 26 ∧
    ¬ (build_quadtree_for_category (List.replicate 26 ⟨10, 10⟩) ⟨0, 0, 4, 4⟩).poiCount
        ≤ MAX_PER_NODE ∧
    0 < MAX_DEPTH := by
  with_unfolding_all decide

/-- C4 amended: when every supplied feature lies within the root box, the
policy holds as claimed: no node lies deeper than `maxDepth` below the root,
every leaf reached at depth strictly less than `maxDepth` holds
`pointCount ≤ maxPerNode`, and the root is a leaf exactly when
`maxDepth = 0` (depth `0 ≥ maxDepth`) or the feature count is at most
`maxPerNode`.  (Without the containment hypothesis a node whose quadrant
buckets are all empty stays a leaf with arbitrarily many features.) -/
theorem c4_amended_policy (maxDepth m : ℕ) (feats : List Feature) (box : Quad)
    (hin : ∀ g ∈ feats, box.contains_feature g = true) :
    heightLeB maxDepth (buildFrom maxDepth m feats box 0) = true ∧
    capOkB m maxDepth (buildFrom maxDepth m feats box 0) = true ∧
    ((buildFrom maxDepth m feats box 0).children = [] ↔
      (maxDepth = 0 ∨ feats.length ≤ m)) := by
  rw [buildFrom_zero]
  exact ⟨buildFuel_heightLe m maxDepth feats box, buildFuel_capOk m maxDepth feats box hin,
    buildFuel_children_iff m maxDepth feats box hin⟩

/-- Witness for C4 amended at the four-point scenario of the specification. -/
theorem c4_amended_policy_witness :
    heightLeB 2 (buildFrom 2 1 [⟨1, 1⟩, ⟨1, 3⟩, ⟨3, 1⟩, ⟨3, 3⟩] ⟨0, 0, 4, 4⟩ 0) = true ∧
    capOkB 1 2 (buildFrom 2 1 [⟨1, 1⟩, ⟨1, 3⟩, ⟨3, 1⟩, ⟨3, 3⟩] ⟨0, 0, 4, 4⟩ 0) = true ∧
    ((buildFrom 2 1 [⟨1, 1⟩, ⟨1, 3⟩, ⟨3, 1⟩, ⟨3, 3⟩] ⟨0, 0, 4, 4⟩ 0).children = [] ↔
      ((2 : ℕ) = 0 ∨ ([⟨1, 1⟩, ⟨1, 3⟩, ⟨3, 1⟩, ⟨3, 3⟩] : List Feature).length ≤ 1)) :=
  c4_amended_policy 2 1 [⟨1, 1⟩, ⟨1, 3⟩, ⟨3, 1⟩, ⟨3, 3⟩] ⟨0, 0, 4, 4⟩ (by decide)

/-- C5: in every built tree, a node is a leaf iff its children list is empty,
and every internal node holds no direct data and has between 1 and 4
children. -/
theorem c5_structural_invariant (maxDepth m : ℕ) (feats : List Feature) (box : Quad) :
    AllNodes StructOk (buildFrom maxDepth m feats box 0) := by
  rw [buildFrom_zero]
  exact buildFuel_allStruct m maxDepth feats box

/-- C6: `subdivide_into_quadrants` splits at the midpoints and returns exactly
the south-west, south-east, north-west, north-east quadrants in that order;
the quadrants cover exactly the points of the box, two distinct quadrants
share only points on a midpoint edge, and the four areas sum to the box
area. -/
theorem c6_subdivide_tiling (q : Quad) :
    q.subdivide_into_quadrants =
      [⟨q.south, q.west, (q.south + q.north) / 2, (q.west + q.east) / 2⟩,
       ⟨q.south, (q.west + q.east) / 2, (q.south + q.north) / 2, q.east⟩,
       ⟨(q.south + q.north) / 2, q.west, q.north, (q.west + q.east) / 2⟩,
       ⟨(q.south + q.north) / 2, (q.west + q.east) / 2, q.north, q.east⟩] ∧
    (∀ g : Feature, q.contains_feature g = true ↔
      ∃ s ∈ q.subdivide_into_quadrants, s.contains_feature g = true) ∧
    List.Pairwise
      (fun a b => ∀ g : Feature, a.contains_feature g = true → b.contains_feature g = true →
        g.lat = (q.south + q.north) / 2 ∨ g.lon = (q.west + q.east) / 2)
      q.subdivide_into_quadrants ∧
    (q.subdivide_into_quadrants.map Quad.area).sum = q.area := by
  refine ⟨rfl, ?_, subdivide_overlap q, subdivide_area q⟩
  intro g
  constructor
  · exact contains_subdivide_cover
  · rintro ⟨s, hs, hc⟩
    exact contains_of_mem_subdivide hs hc

/-- C7: containment is inclusive on all four edges, so the point `(2, 2)` on
the shared midpoint edges of box `(0, 0, 4, 4)` is contained by all four
quadrants, and a build that splits that box counts it in all four children. -/
theorem c7_inclusive_containment :
    (∀ (q : Quad) (g : Feature), q.contains_feature g = true ↔
      ((q.south ≤ g.lat ∧ g.lat ≤ q.north) ∧ (q.west ≤ g.lon ∧ g.lon ≤ q.east))) ∧
    ((Quad.mk 0 0 4 4).subdivide_into_quadrants.all
      fun s => s.contains_feature ⟨2, 2⟩) = true ∧
    (buildFrom 1 0 [⟨2, 2⟩] ⟨0, 0, 4, 4⟩ 0).children.map QuadtreeNode.poiCount = [1, 1, 1, 1] := by
  refine ⟨contains_feature_iff, ?_, ?_⟩
  · with_unfolding_all decide
  · with_unfolding_all decide

/-- C8: building from an empty feature list over any box, with any
configuration, yields a single childless leaf with `pointCount = 0` and
undefined `averagePosition`, without failing. -/
theorem c8_empty_input (maxDepth m : ℕ) (box : Quad) :
    buildFrom maxDepth m [] box 0 = QuadtreeNode.mk box [] [] 0 none := by
  rw [buildFrom_zero]
  cases maxDepth with
  | zero =>
    rw [buildFuel_zero, computeAvg_nil]
    simp
  | succ n =>
    rw [buildFuel_succ2, if_pos (by simp), computeAvg_nil]
    simp

/-- C9 (implicit): build applies no containment filter to the features handed
to a node: whenever the termination test fires (count within capacity, or
`maxDepth = 0` so depth `0 ≥ maxDepth`), the root is a leaf counting every
supplied feature, outside features included; whereas a feature outside the box
ends in no quadrant bucket, so when the root subdivides, it is absent from
every leaf of the tree (it keeps its full multiplicity only in the leaf
case). -/
theorem c9_no_containment_filter (maxDepth m : ℕ) (feats : List Feature) (box : Quad)
    (g : Feature) :
    (feats.length ≤ m →
      (buildFrom maxDepth m feats box 0).children = [] ∧
      (buildFrom maxDepth m feats box 0).poiCount = feats.length) ∧
    (maxDepth = 0 →
      (buildFrom maxDepth m feats box 0).children = [] ∧
      (buildFrom maxDepth m feats box 0).poiCount = feats.length) ∧
    (box.contains_feature g = false →
      countFeatLeaves g (buildFrom maxDepth m feats box 0) =
        if (buildFrom maxDepth m feats box 0).children.isEmpty then feats.count g else 0) := by
  rw [buildFrom_zero]
  refine ⟨?_, ?_, ?_⟩
  · intro hle
    obtain ⟨h1, -, h3⟩ := buildFuel_leaf_fields m maxDepth feats box (Or.inr hle)
    exact ⟨h1, h3⟩
  · rintro rfl
    obtain ⟨h1, -, h3⟩ := buildFuel_leaf_fields m 0 feats box (Or.inl rfl)
    exact ⟨h1, h3⟩
  · intro hout
    exact countFeatLeaves_build_out m maxDepth feats box g hout

/-- Witness for C9 at a feature outside the box with the root a leaf. -/
theorem c9_no_containment_filter_witness :
    ((buildFrom 0 25 [⟨10, 10⟩] ⟨0, 0, 4, 4⟩ 0).children = [] ∧
      (buildFrom 0 25 [⟨10, 10⟩] ⟨0, 0, 4, 4⟩ 0).poiCount =
        ([⟨10, 10⟩] : List Feature).length) ∧
    ((buildFrom 0 25 [⟨10, 10⟩] ⟨0, 0, 4, 4⟩ 0).children = [] ∧
      (buildFrom 0 25 [⟨10, 10⟩] ⟨0, 0, 4, 4⟩ 0).poiCount =
        ([⟨10, 10⟩] : List Feature).length) ∧
    countFeatLeaves ⟨10, 10⟩ (buildFrom 0 25 [⟨10, 10⟩] ⟨0, 0, 4, 4⟩ 0) =
      (if (buildFrom 0 25 [⟨10, 10⟩] ⟨0, 0, 4, 4⟩ 0).children.isEmpty
        then ([⟨10, 10⟩] : List Feature).count ⟨10, 10⟩ else 0) :=
  ⟨(c9_no_containment_filter 0 25 [⟨10, 10⟩] ⟨0, 0, 4, 4⟩ ⟨10, 10⟩).1 (by decide),
   (c9_no_containment_filter 0 25 [⟨10, 10⟩] ⟨0, 0, 4, 4⟩ ⟨10, 10⟩).2.1 rfl,
   (c9_no_containment_filter 0 25 [⟨10, 10⟩] ⟨0, 0, 4, 4⟩ ⟨10, 10⟩).2.2 (by decide)⟩

/-- C10 (implicit): the aggregation pass is idempotent on every tree, and in
particular every built subtree is a fixed point of
`compute_average_position` — which is what lets the build re-run the full
recursive aggregation at each internal node over already-aggregated
children. -/
theorem c10_aggregation_idempotent :
    (∀ t : QuadtreeNode,
      compute_average_position (compute_average_position t) = compute_average_position t) ∧
    (∀ (maxDepth m : ℕ) (feats : List Feature) (box : Quad),
      compute_average_position (buildFrom maxDepth m feats box 0) =
        buildFrom maxDepth m feats box 0) := by
  refine ⟨computeAvg_idem, ?_⟩
  intro maxDepth m feats box
  rw [buildFrom_zero]
  exact buildFuel_fixed m maxDepth feats box
